import Mathlib

/-!
Verification of the prompt-optimiser repository's core subsystems against its
specification: the sliding-window rate limiter (both the full-rescan and the
ring-buffer variants), the client identity resolver, the structured response
extractor, and the session phase state machine.  Every definition is a shallow
embedding of the corresponding JavaScript source; theorems settle the frozen
claims.
-/

/-! ### Sliding-window rate limiter (ring-buffer variant, route handler)

Embeds `checkRateLimit` from the optimised route handler: a fixed-capacity
circular buffer of timestamps per client entry.  JS numbers holding
`Date.now()` values are exact integers, embedded as `Nat`; the window test
`timestamps[idx] > now - RATE_LIMIT_WINDOW` is written additively
(`now < ts + RATE_LIMIT_WINDOW`) so that `Nat` subtraction never truncates. -/

def RATE_LIMIT_WINDOW : Nat := 60 * 1000

def RATE_LIMIT_MAX : Nat := 20

structure RLEntry where
  timestamps : List Nat
  head : Nat
  count : Nat
deriving DecidableEq

/-- Entry created on first request: `new Array(RATE_LIMIT_MAX).fill(0)`. -/
def initEntry : RLEntry := ⟨List.replicate RATE_LIMIT_MAX 0, 0, 0⟩

/-- The source's window test `ts > now - RATE_LIMIT_WINDOW`, written additively. -/
def inWindow (ts now : Nat) : Bool := decide (now < ts + RATE_LIMIT_WINDOW)

/-- Index `(entry.head - entry.count + RATE_LIMIT_MAX) % RATE_LIMIT_MAX`; the JS value
is nonnegative because `count ≤ RATE_LIMIT_MAX`, so adding `RATE_LIMIT_MAX`
before subtracting reproduces it in `Nat`. -/
def oldestIndex (e : RLEntry) : Nat :=
  (e.head + RATE_LIMIT_MAX - e.count) % RATE_LIMIT_MAX

/-- Buffer index of the `i`-th oldest valid slot:
`(entry.head - entry.count + i + RATE_LIMIT_MAX) % RATE_LIMIT_MAX`. -/
def slotIdx (e : RLEntry) (i : Nat) : Nat :=
  (e.head + RATE_LIMIT_MAX - e.count + i) % RATE_LIMIT_MAX

/-- The scan loop `for (i = 0; i < entry.count; i++) ... validCount++`. -/
def validCount (e : RLEntry) (now : Nat) : Nat :=
  ((List.range e.count).filter fun i =>
    inWindow (e.timestamps.getD (slotIdx e i) 0) now).length

/-- One call of the ring-buffer `checkRateLimit`; returns the decision and the
updated entry. -/
def checkRateLimit (e : RLEntry) (now : Nat) : Bool × RLEntry :=
  if RATE_LIMIT_MAX ≤ e.count ∧ inWindow (e.timestamps.getD (oldestIndex e) 0) now then
    (false, e)
  else if RATE_LIMIT_MAX ≤ validCount e now then
    (false, e)
  else
    (true,
      { timestamps := e.timestamps.set e.head now
        head := (e.head + 1) % RATE_LIMIT_MAX
        count := min (e.count + 1) RATE_LIMIT_MAX })

/-- Decisions of the ring-buffer limiter over a sequence of call times. -/
def runRing (e : RLEntry) : List Nat → List Bool
  | [] => []
  | t :: ts => (checkRateLimit e t).1 :: runRing (checkRateLimit e t).2 ts

/-! ### Sliding-window rate limiter (simple full-rescan variant)

Embeds `checkRateLimit` from the simpler route handler: the entry keeps a plain
array of timestamps, refiltered against the window on every call. -/

/-- One call of the full-rescan `checkRateLimit`: filter, test, push. -/
def checkRateLimitSimple (requests : List Nat) (now : Nat) : Bool × List Nat :=
  let valid := requests.filter fun t => inWindow t now
  if RATE_LIMIT_MAX ≤ valid.length then (false, valid) else (true, valid ++ [now])

/-- Decisions of the full-rescan limiter over a sequence of call times. -/
def runSimple (requests : List Nat) : List Nat → List Bool
  | [] => []
  | t :: ts =>
    (checkRateLimitSimple requests t).1 ::
      runSimple (checkRateLimitSimple requests t).2 ts

/-! ### Reference semantics used by the claims

The claims describe both limiters through the history of previously accepted
timestamps: a call is accepted exactly when fewer than `RATE_LIMIT_MAX`
previously accepted requests lie within the trailing window. -/

/-- Number of previously accepted timestamps inside the trailing window. -/
def acceptedInWindow (acc : List Nat) (now : Nat) : Nat :=
  acc.countP fun ts => inWindow ts now

/-- Accept iff fewer than `RATE_LIMIT_MAX` accepted timestamps are in-window;
accepted calls append their timestamp to the history. -/
def specStep (acc : List Nat) (now : Nat) : Bool × List Nat :=
  if acceptedInWindow acc now < RATE_LIMIT_MAX then (true, acc ++ [now])
  else (false, acc)

/-- Decisions of the reference semantics over a sequence of call times. -/
def runSpec (acc : List Nat) : List Nat → List Bool
  | [] => []
  | t :: ts => (specStep acc t).1 :: runSpec (specStep acc t).2 ts

/-- The logically stored timestamps of a ring-buffer entry, oldest first. -/
def logical (e : RLEntry) : List Nat :=
  (List.range e.count).map fun i => e.timestamps.getD (slotIdx e i) 0

/-- Coupling invariant between the accepted-timestamp history and the
ring-buffer entry: the buffer holds exactly the most recent
`min (acc.length) RATE_LIMIT_MAX` accepted timestamps. -/
structure RLInv (acc : List Nat) (e : RLEntry) : Prop where
  len : e.timestamps.length = RATE_LIMIT_MAX
  hd : e.head = acc.length % RATE_LIMIT_MAX
  cnt : e.count = min acc.length RATE_LIMIT_MAX
  log : logical e = acc.drop (acc.length - e.count)

/-! ### Session phase state machine (client page)

Embeds the client page's state and handlers.  React state updates inside one
handler are batched; each handler is embedded as a pure function from the
session state (plus the outcome of its remote call, passed as a parameter) to
the new session state.  JS quirks preserved: `answers[q.id]?.trim()` is truthy
iff the entry exists and trims to a non-empty string; `phase` is one of the
three string constants, embedded as an enumeration. -/

/-- JavaScript's `\s` / `String.prototype.trim` whitespace class. -/
def isJsWs (c : Char) : Bool :=
  decide (c = ' ' ∨ c = '\t' ∨ c = '\n' ∨ c = '\r' ∨ c = '\x0b' ∨ c = '\x0c' ∨
    c.toNat = 0xa0 ∨ c.toNat = 0x1680 ∨ (0x2000 ≤ c.toNat ∧ c.toNat ≤ 0x200a) ∨
    c.toNat = 0x2028 ∨ c.toNat = 0x2029 ∨ c.toNat = 0x202f ∨ c.toNat = 0x205f ∨
    c.toNat = 0x3000 ∨ c.toNat = 0xfeff)

/-- JavaScript `String.prototype.trim` on a character list. -/
def jsTrimChars (l : List Char) : List Char :=
  ((l.dropWhile isJsWs).reverse.dropWhile isJsWs).reverse

/-- JavaScript `String.prototype.trim`. -/
def jsTrim (s : String) : String := String.mk (jsTrimChars s.data)

inductive Phase where
  | input : Phase
  | critique : Phase
  | result : Phase
deriving DecidableEq

/-- A clarifying question of a critique (`critique.questions[]`). -/
structure Question where
  id : String
  question : String
  why : String
  category : String
deriving DecidableEq

/-- Structured critique result (phase-1 response). -/
structure Critique where
  overallAssessment : String
  concerns : List String
  questions : List Question
deriving DecidableEq

/-- Structured generation result (phase-2 response); the JSON field named
`structure` is embedded as `sections` because `structure` is a Lean keyword. -/
structure ResultObj where
  generatedPrompt : String
  assumptions : List String
  sections : List String
  suggestions : List String
  summary : String
deriving DecidableEq

/-- The client page's React state. -/
structure Session where
  entryMode : Option String
  phase : Phase
  selectedVendor : String
  selectedModel : String
  inputText : String
  problemContext : String
  showProblemContext : Bool
  critique : Option Critique
  answers : List (String × String)
  result : Option ResultObj
  isLoading : Bool
  error : String
  isRegenerating : Bool
  retryCount : Nat
deriving DecidableEq

/-- Outcome of the remote `critique` call, passed to the handler. -/
inductive CritiqueOutcome where
  | ok (data : Critique) : CritiqueOutcome
  | fail (msg : String) : CritiqueOutcome
deriving DecidableEq

/-- Outcome of a remote `generate` call, passed to the handler. -/
inductive GenerateOutcome where
  | ok (data : ResultObj) : GenerateOutcome
  | fail (msg : String) : GenerateOutcome
deriving DecidableEq

/-- Vendor model lists from the static guidance table (`GUIDANCE[vendor].models`). -/
def GUIDANCE_models : List (String × List String) :=
  [("claude", ["Opus 4.5", "Sonnet 4.5", "Haiku 4.5"]),
   ("gpt", ["Instant", "Thinking", "Pro"]),
   ("gemini", ["Pro", "Flash", "Deep Think"]),
   ("copilot", ["GPT-5.2 (licensed)", "GPT-5 (standard)", "GPT-4.1 (fallback)"])]

/-- The default model `GUIDANCE[vendor].models[0]`. -/
def defaultModel (vendor : String) : String :=
  ((GUIDANCE_models.lookup vendor).getD []).headD ""

/-- Truthiness of `answers[q.id]?.trim()`: the entry exists and its trimmed
text is non-empty. -/
def answeredB (answers : List (String × String)) (q : Question) : Bool :=
  match answers.lookup q.id with
  | some a => jsTrim a != ""
  | none => false

/-- The client page's `buildAdditionalContext(critique, answers)`:
filter the answered questions, render `"Q: <question>\nA: <answer>"` for each,
join with blank lines (empty string when nothing was answered). -/
def buildAdditionalContext (critique : Option Critique)
    (answers : List (String × String)) : String :=
  let answeredQuestions :=
    (match critique with
      | some c => c.questions
      | none => []).filter (answeredB answers)
  if answeredQuestions.isEmpty then ""
  else
    String.intercalate "\n\n"
      (answeredQuestions.map fun q =>
        "Q: " ++ q.question ++ "\nA: " ++ ((answers.lookup q.id).getD ""))

/-- The claim's description of the additional-context string, written as a
direct recursion over the question list in its original order: keep
`"Q: <question>\nA: <answer>"` exactly for the questions whose answer has
non-empty trimmed text, and join the kept pieces with blank lines. -/
def claimContextPieces (answers : List (String × String)) :
    List Question → List String
  | [] => []
  | q :: rest =>
    if answeredB answers q then
      ("Q: " ++ q.question ++ "\nA: " ++ ((answers.lookup q.id).getD "")) ::
        claimContextPieces answers rest
    else claimContextPieces answers rest

/-- Join of the claim-side pieces with blank lines. -/
def claimContext (qs : List Question) (answers : List (String × String)) : String :=
  String.intercalate "\n\n" (claimContextPieces answers qs)

/-- Handler `runCritique`: validates the trimmed input, then performs the remote
critique call; returns the new session state and whether the remote call was
made at all. -/
def runCritique (s : Session) (outcome : CritiqueOutcome) : Session × Bool :=
  if jsTrim s.inputText = "" ∨ (jsTrim s.inputText).length < 5 then
    ({ s with error := "Please provide more detail." }, false)
  else
    let s1 := { s with isLoading := true, error := "" }
    match outcome with
    | .ok data =>
      ({ s1 with critique := some data, answers := [], phase := Phase.critique,
                 retryCount := 0, isLoading := false }, true)
    | .fail msg =>
      ({ s1 with error := msg, retryCount := s.retryCount + 1, isLoading := false }, true)

/-- Handler `runGenerate`: performs the remote generate call; returns the new session
state and the `additionalContext` string sent with the request. -/
def runGenerate (s : Session) (outcome : GenerateOutcome) : Session × String :=
  let s1 := { s with isLoading := true, error := "" }
  let ctx := buildAdditionalContext s.critique s.answers
  match outcome with
  | .ok data =>
    ({ s1 with result := some data, phase := Phase.result, retryCount := 0,
               isLoading := false }, ctx)
  | .fail msg =>
    ({ s1 with error := msg, retryCount := s.retryCount + 1, isLoading := false }, ctx)

/-- The synchronous opening of `regenerateForModel`, executed before awaiting
the remote call: raise the regenerating flag, adopt the new vendor/model,
clear the error. -/
def regenBegin (s : Session) (newVendor newModel : String) : Session :=
  { s with isRegenerating := true, selectedVendor := newVendor,
           selectedModel := newModel, error := "" }

/-- Handler `regenerateForModel`: returns the new session state and the
`additionalContext` string sent with the request. -/
def regenerateForModel (s : Session) (newVendor newModel : String)
    (outcome : GenerateOutcome) : Session × String :=
  let s1 := regenBegin s newVendor newModel
  let ctx := buildAdditionalContext s.critique s.answers
  match outcome with
  | .ok data => ({ s1 with result := some data, isRegenerating := false }, ctx)
  | .fail msg => ({ s1 with error := msg, isRegenerating := false }, ctx)

/-- Handler `handleVendorChange`: in `result` phase triggers a regeneration with the
vendor's first model; in `input` phase a plain selection change; disabled in
`critique` phase. -/
def handleVendorChange (s : Session) (vendor : String)
    (outcome : GenerateOutcome) : Session :=
  if s.phase = Phase.result then
    (regenerateForModel s vendor (defaultModel vendor) outcome).1
  else if s.phase = Phase.input then
    { s with selectedVendor := vendor, selectedModel := defaultModel vendor }
  else s

/-- Handler `handleModelChange`: in `result` phase triggers a regeneration with the
current vendor; otherwise a plain selection change. -/
def handleModelChange (s : Session) (model : String)
    (outcome : GenerateOutcome) : Session :=
  if s.phase = Phase.result then
    (regenerateForModel s s.selectedVendor model outcome).1
  else { s with selectedModel := model }

/-- A concrete critique used by witnesses. -/
def sampleCritique : Critique :=
  { overallAssessment := "ok"
    concerns := []
    questions := [{ id := "q1", question := "Audience?", why := "tone", category := "gap" }] }

/-- A concrete generation result used by witnesses. -/
def sampleResult : ResultObj :=
  { generatedPrompt := "Write an email."
    assumptions := []
    sections := []
    suggestions := ["Add a deadline"]
    summary := "done" }

/-- A concrete session used by witnesses. -/
def sampleSession : Session :=
  { entryMode := some "idea"
    phase := Phase.result
    selectedVendor := "claude"
    selectedModel := "Sonnet 4.5"
    inputText := "hi"
    problemContext := ""
    showProblemContext := false
    critique := some sampleCritique
    answers := [("q1", "engineers")]
    result := some sampleResult
    isLoading := false
    error := ""
    isRegenerating := false
    retryCount := 0 }

/-! ### Client identity resolver (`getClientIdentifier`)

Embeds the route handler's identity resolution.  JS string operations are
embedded over character lists (`String.prototype.split`, `trim`); the two
validation regexes are embedded as their exact languages: `(\d{1,3}\.){3}\d{1,3}`
is four dot-separated runs of 1-3 digits, `([0-9a-fA-F]{0,4}:){2,7}[0-9a-fA-F]{0,4}`
is 3 to 8 colon-separated runs of 0-4 hex digits.  The fallback fingerprint is
`"anon_" + base64(utf8(userAgent + acceptLanguage)).substring(0, 16)`. -/

/-- JavaScript `String.prototype.split` with a single-character separator. -/
def splitOnChar (sep : Char) : List Char → List (List Char)
  | [] => [[]]
  | c :: rest =>
    match splitOnChar sep rest with
    | [] => [[]]
    | g :: gs => if c = sep then [] :: g :: gs else (c :: g) :: gs

/-- The language of the source's basic IPv4 pattern. -/
def ipv4Test (s : String) : Bool :=
  let parts := splitOnChar '.' s.data
  parts.length == 4 &&
    parts.all fun p => decide (1 ≤ p.length ∧ p.length ≤ 3) && p.all Char.isDigit

/-- Membership in `[0-9a-fA-F]`. -/
def isHexDigit (c : Char) : Bool :=
  c.isDigit || decide ('a' ≤ c ∧ c ≤ 'f') || decide ('A' ≤ c ∧ c ≤ 'F')

/-- The language of the source's basic IPv6 pattern. -/
def ipv6Test (s : String) : Bool :=
  let parts := splitOnChar ':' s.data
  decide (3 ≤ parts.length ∧ parts.length ≤ 8) &&
    parts.all fun p => decide (p.length ≤ 4) && p.all isHexDigit

/-- UTF-8 encoding of one code point (`Buffer.from` uses UTF-8). -/
def utf8Bytes (c : Char) : List Nat :=
  let n := c.toNat
  if n < 0x80 then [n]
  else if n < 0x800 then [0xc0 + n / 0x40, 0x80 + n % 0x40]
  else if n < 0x10000 then
    [0xe0 + n / 0x1000, 0x80 + (n / 0x40) % 0x40, 0x80 + n % 0x40]
  else
    [0xf0 + n / 0x40000, 0x80 + (n / 0x1000) % 0x40, 0x80 + (n / 0x40) % 0x40,
      0x80 + n % 0x40]

/-- The standard base64 alphabet. -/
def base64Table : List Char :=
  "ABCDEFGHIJKLMNOPQRSTUVWXYZabcdefghijklmnopqrstuvwxyz0123456789+/".data

/-- One 6-bit group to a base64 character. -/
def b64char (n : Nat) : Char := base64Table.getD n 'A'

/-- Standard base64 with `=` padding (`Buffer.prototype.toString('base64')`). -/
def b64encode : List Nat → List Char
  | [] => []
  | [b1] => [b64char (b1 / 4), b64char (b1 % 4 * 16), '=', '=']
  | [b1, b2] =>
    [b64char (b1 / 4), b64char (b1 % 4 * 16 + b2 / 16), b64char (b2 % 16 * 4), '=']
  | b1 :: b2 :: b3 :: rest =>
    b64char (b1 / 4) :: b64char (b1 % 4 * 16 + b2 / 16) ::
      b64char (b2 % 16 * 4 + b3 / 64) :: b64char (b3 % 64) :: b64encode rest

/-- The fallback fingerprint:
``anon_${Buffer.from(userAgent + acceptLang).toString('base64').substring(0, 16)}``. -/
def fingerprint (userAgent acceptLang : String) : String :=
  "anon_" ++ String.mk ((b64encode (((userAgent ++ acceptLang).data).flatMap utf8Bytes)).take 16)

/-- The request headers read by the resolver; `none` is an absent header. -/
structure RequestHeaders where
  xForwardedFor : Option String
  xRealIp : Option String
  userAgent : Option String
  acceptLanguage : Option String
deriving DecidableEq

/-- The route handler's `getClientIdentifier(request)`:
`let ip = forwardedFor?.split(',')[0] || realIp || ''`, trim, validate against
the two patterns, else fall back to the fingerprint. -/
def getClientIdentifier (h : RequestHeaders) : String :=
  let rawFirst : String :=
    match h.xForwardedFor with
    | some f => String.mk ((splitOnChar ',' f.data).headD [])
    | none => ""
  let ip0 := if rawFirst ≠ "" then rawFirst else h.xRealIp.getD ""
  let ip := jsTrim ip0
  if ip ≠ "" ∧ (ipv4Test ip ∨ ipv6Test ip) then ip
  else fingerprint (h.userAgent.getD "") (h.acceptLanguage.getD "")

/-- The claim's described behaviour: scan the forwarded-for list for its first
IP-looking token; a candidate matching neither pattern falls through to the
next source, so the real-IP header is consulted whenever the forwarded-for
list yields no match, and the fingerprint is only the final fallback. -/
def claimResolve (h : RequestHeaders) : String :=
  let tokens :=
    match h.xForwardedFor with
    | some f => (splitOnChar ',' f.data).map fun t => String.mk (jsTrimChars t)
    | none => []
  match tokens.find? (fun t => ipv4Test t || ipv6Test t) with
  | some t => t
  | none =>
    let r := jsTrim (h.xRealIp.getD "")
    if ipv4Test r || ipv6Test r then r
    else fingerprint (h.userAgent.getD "") (h.acceptLanguage.getD "")

/-- The amended behaviour: the only forwarded-for candidate is the first
comma-separated entry; when the header is present and that entry is non-empty,
a validation failure falls through directly to the fingerprint (never to the
real-IP header); the real-IP header is considered only when the forwarded-for
header is absent or its first entry is empty. -/
def amendedResolve (h : RequestHeaders) : String :=
  let candidate : String :=
    match h.xForwardedFor with
    | some f =>
      let t := String.mk ((splitOnChar ',' f.data).headD [])
      if t ≠ "" then t else h.xRealIp.getD ""
    | none => h.xRealIp.getD ""
  let c := jsTrim candidate
  if c ≠ "" ∧ (ipv4Test c ∨ ipv6Test c) then c
  else fingerprint (h.userAgent.getD "") (h.acceptLanguage.getD "")

/-- Headers refuting the claim: a non-IP forwarded-for entry together with a
valid real-IP header. -/
def cexHeaders : RequestHeaders :=
  { xForwardedFor := some "notanip"
    xRealIp := some "9.9.9.9"
    userAgent := none
    acceptLanguage := none }

/-! ### Debounced input editing (`handleInputChange`)

Embeds the client page's debounced reset together with a small explicit
scheduler: `timers` is the set of live `setTimeout` tasks `(id, fireTime)`,
`pendingRef` is `resetTimeoutRef.current`.  `handleInputChange` always writes
`inputText`; while `phase ≠ input` it cancels the referenced timer and
schedules a fresh 300 ms one.  A firing timer performs the debounced reset
(back to `input`, clearing critique, answers and result). -/

/-- The scheduler-aware UI state: session, timer ref, live timers, id counter. -/
structure UIState where
  sess : Session
  pendingRef : Option Nat
  timers : List (Nat × Nat)
  nextId : Nat
deriving DecidableEq

/-- Effect of `clearTimeout(resetTimeoutRef.current)`: drop the referenced timer. -/
def clearRefTimers (u : UIState) : List (Nat × Nat) :=
  match u.pendingRef with
  | some i => u.timers.filter fun p => p.1 != i
  | none => u.timers

/-- The debounced reset executed by the timer callback. -/
def debounceReset (s : Session) : Session :=
  { s with phase := Phase.input, critique := none, answers := [], result := none }

/-- Handler `handleInputChange(text)` at clock time `now`. -/
def handleInputChange (u : UIState) (text : String) (now : Nat) : UIState :=
  let sess1 := { u.sess with inputText := text }
  if u.sess.phase ≠ Phase.input then
    { sess := sess1
      pendingRef := some u.nextId
      timers := clearRefTimers u ++ [(u.nextId, now + 300)]
      nextId := u.nextId + 1 }
  else { u with sess := sess1 }

/-- A timer with identifier `id` fires: run the reset callback, retire the
timer. -/
def fireTimer (u : UIState) (id : Nat) : UIState :=
  { u with sess := debounceReset u.sess, timers := u.timers.filter fun p => p.1 != id }

/-- Fire every timer due at or before time `t`; returns the new state and the
fire times. -/
def fireDue (u : UIState) (t : Nat) : UIState × List Nat :=
  let due := u.timers.filter fun p => decide (p.2 ≤ t)
  (due.foldl (fun acc p => fireTimer acc p.1) u, due.map fun p => p.2)

/-- Process a time-ordered list of edit events: before each edit fire the due
timers, then run `handleInputChange`; after the last edit let the remaining
timers fire.  Returns the final state, the list of timer fire times, and the
largest number of simultaneously pending timers observed. -/
def runEdits : UIState → List (Nat × String) → UIState × List Nat × Nat
  | u, [] =>
    (u.timers.foldl (fun acc p => fireTimer acc p.1) u,
      u.timers.map fun p => p.2, u.timers.length)
  | u, (t, txt) :: rest =>
    let fd := fireDue u t
    let u2 := handleInputChange fd.1 txt t
    let r := runEdits u2 rest
    (r.1, fd.2 ++ r.2.1, max (max u.timers.length u2.timers.length) r.2.2)

/-- A session with no scheduler activity yet. -/
def startUI (s : Session) : UIState := ⟨s, none, [], 0⟩

/-- The fire time of the single surviving debounce timer after a burst:
starts at `ft` and is replaced by `t + 300` at each edit `(t, _)`; for a
nonempty burst this is the last edit time plus 300 ms. -/
def finalFire (ft : Nat) : List (Nat × String) → Nat
  | [] => ft
  | (t, _) :: rest => finalFire (t + 300) rest

/-- The input text after a burst of edits (the last edit's text). -/
def finalText (cur : String) : List (Nat × String) → String
  | [] => cur
  | (_, txt) :: rest => finalText txt rest

/-! ### Structured response extractor (route handler `POST`)

Embeds the response-parsing pipeline: fenced-code-block stripping (indexOf
over triple backticks), slicing from the first `{` to the last `}`, the two
trailing-comma cleanup regex replacements `,\s*}` / `,\s*]`, and `JSON.parse`.
`JSON.parse` is embedded as an executable recursive-descent parser over a JSON
value type; the embedded fragment covers null, booleans, optionally signed
integer numerals, strings with the single-character escapes, arrays and
objects — fractional/exponent numerals and `\uXXXX` escapes are outside the
embedding and simply fail to parse. -/

/-- JSON interchange whitespace (as skipped by `JSON.parse`). -/
def isJsonWs (c : Char) : Bool :=
  decide (c = ' ' ∨ c = '\t' ∨ c = '\n' ∨ c = '\r')

mutual
inductive Json where
  | null : Json
  | bool (b : Bool) : Json
  | num (n : Int) : Json
  | str (s : String) : Json
  | arr (xs : JsonItems) : Json
  | obj (kvs : JsonFields) : Json
deriving DecidableEq
inductive JsonItems where
  | nil : JsonItems
  | cons (hd : Json) (tl : JsonItems) : JsonItems
deriving DecidableEq
inductive JsonFields where
  | nil : JsonFields
  | cons (k : String) (v : Json) (tl : JsonFields) : JsonFields
deriving DecidableEq
end

/-- JSON single-character string escapes. -/
def unescape (c : Char) : Option Char :=
  if c = '"' then some '"'
  else if c = '\\' then some '\\'
  else if c = '/' then some '/'
  else if c = 'b' then some '\x08'
  else if c = 'f' then some '\x0c'
  else if c = 'n' then some '\n'
  else if c = 'r' then some '\r'
  else if c = 't' then some '\t'
  else none

/-- Parse a JSON string body after the opening quote; returns the decoded
characters and the remainder after the closing quote.  Raw control characters
are rejected, as by `JSON.parse`. -/
def parseStrBody : List Char → Option (List Char × List Char)
  | [] => none
  | '"' :: rest => some ([], rest)
  | '\\' :: c :: rest =>
    match unescape c with
    | some c' =>
      match parseStrBody rest with
      | some (s, r) => some (c' :: s, r)
      | none => none
    | none => none
  | c :: rest =>
    if c.toNat < 32 then none
    else
      match parseStrBody rest with
      | some (s, r) => some (c :: s, r)
      | none => none

/-- Decimal value of a digit run. -/
def charsToNat (ds : List Char) : Nat :=
  ds.foldl (fun acc c => 10 * acc + (c.toNat - 48)) 0

/-- Parser mode: a single value, the items of an array after `[`, or the
fields of an object after `{`. -/
inductive PMode where
  | value : PMode
  | items : PMode
  | fields : PMode

/-- Parser result for the corresponding mode. -/
inductive PRes where
  | v (j : Json) : PRes
  | items (xs : JsonItems) : PRes
  | fields (kvs : JsonFields) : PRes

/-- Fuelled recursive-descent JSON parser (the embedding of `JSON.parse`). -/
def parseCore : Nat → PMode → List Char → Option (PRes × List Char)
  | 0, _, _ => none
  | fuel+1, PMode.value, l =>
    match l.dropWhile isJsonWs with
    | 'n' :: 'u' :: 'l' :: 'l' :: rest => some (.v .null, rest)
    | 't' :: 'r' :: 'u' :: 'e' :: rest => some (.v (.bool true), rest)
    | 'f' :: 'a' :: 'l' :: 's' :: 'e' :: rest => some (.v (.bool false), rest)
    | '"' :: rest =>
      match parseStrBody rest with
      | some (s, rest') => some (.v (.str (String.mk s)), rest')
      | none => none
    | '[' :: rest =>
      match rest.dropWhile isJsonWs with
      | ']' :: rest' => some (.v (.arr .nil), rest')
      | _ =>
        match parseCore fuel PMode.items rest with
        | some (.items xs, rest') => some (.v (.arr xs), rest')
        | _ => none
    | '{' :: rest =>
      match rest.dropWhile isJsonWs with
      | '}' :: rest' => some (.v (.obj .nil), rest')
      | _ =>
        match parseCore fuel PMode.fields rest with
        | some (.fields kvs, rest') => some (.v (.obj kvs), rest')
        | _ => none
    | '-' :: rest =>
      let digits := rest.takeWhile Char.isDigit
      if digits.isEmpty then none
      else some (.v (.num (-(charsToNat digits : Int))), rest.drop digits.length)
    | c :: rest =>
      if c.isDigit then
        let digits := (c :: rest).takeWhile Char.isDigit
        some (.v (.num (charsToNat digits)), (c :: rest).drop digits.length)
      else none
    | [] => none
  | fuel+1, PMode.items, l =>
    match parseCore fuel PMode.value l with
    | some (.v x, rest) =>
      match rest.dropWhile isJsonWs with
      | ',' :: rest' =>
        match parseCore fuel PMode.items rest' with
        | some (.items xs, rest'') => some (.items (.cons x xs), rest'')
        | _ => none
      | ']' :: rest' => some (.items (.cons x .nil), rest')
      | _ => none
    | _ => none
  | fuel+1, PMode.fields, l =>
    match l.dropWhile isJsonWs with
    | '"' :: rest =>
      match parseStrBody rest with
      | some (k, rest1) =>
        match rest1.dropWhile isJsonWs with
        | ':' :: rest2 =>
          match parseCore fuel PMode.value rest2 with
          | some (.v x, rest3) =>
            match rest3.dropWhile isJsonWs with
            | ',' :: rest4 =>
              match parseCore fuel PMode.fields rest4 with
              | some (.fields kvs, rest5) =>
                some (.fields (.cons (String.mk k) x kvs), rest5)
              | _ => none
            | '}' :: rest4 => some (.fields (.cons (String.mk k) x .nil), rest4)
            | _ => none
          | _ => none
        | _ => none
      | none => none
    | _ => none

/-- The embedding of `JSON.parse`: a single value with only whitespace after. -/
def jsonParse (l : List Char) : Option Json :=
  match parseCore (l.length + 1) PMode.value l with
  | some (.v j, rest) => if (rest.dropWhile isJsonWs).isEmpty then some j else none
  | _ => none

/-- Does the regex `,\s*<close>` match at the head of the list? -/
def matchAt (close : Char) (l : List Char) : Bool :=
  match l with
  | c :: rest => decide (c = ',') && ((rest.dropWhile isJsWs).head? == some close)
  | [] => false

/-- Does `,\s*<close>` match anywhere in the list? -/
def hasMatch (close : Char) : List Char → Bool
  | [] => false
  | l@(_ :: rest) => matchAt close l || hasMatch close rest

/-- One global regex replacement `,\s*<close>` ↦ `<close>` (the source's
trailing-comma cleanup), fuelled for structural recursion. -/
def replF (close : Char) : Nat → List Char → List Char
  | 0, l => l
  | _fuel+1, [] => []
  | fuel+1, c :: rest =>
    if c = ',' then
      match rest.drop (rest.takeWhile isJsWs).length with
      | c2 :: tail =>
        if c2 = close then c2 :: replF close fuel tail else c :: replF close fuel rest
      | [] => c :: replF close fuel rest
    else c :: replF close fuel rest

/-- The replacement `.replace(/,\s*<close>/g, '<close>')`. -/
def repl (close : Char) (l : List Char) : List Char := replF close l.length l

/-- The backtick character (0x60). -/
def backtick : Char := Char.ofNat 96

/-- The fence delimiter. -/
def tripleBacktick : List Char := "```".data

/-- First index at which `pat` occurs. -/
def findSubAux (pat : List Char) : List Char → Option Nat
  | [] => if pat.isEmpty then some 0 else none
  | c :: rest =>
    if pat.isPrefixOf (c :: rest) then some 0
    else (findSubAux pat rest).map (· + 1)

/-- Embedding of `String.prototype.indexOf(pat, start)` (`none` for `-1`). -/
def indexOfFrom (pat : List Char) (l : List Char) (start : Nat) : Option Nat :=
  (findSubAux pat (l.drop start)).map (· + start)

/-- Index of the last `}` (`String.prototype.lastIndexOf('}')`). -/
def lastBraceIdx (l : List Char) : Option Nat :=
  (l.reverse.findIdx? (fun c => c == '}')).map (fun i => l.length - 1 - i)

/-- The fenced-code-block stripping step: content strictly between the first
two triple-backtick fences, with an optional leading `json` tag dropped;
unchanged when no complete fence pair exists. -/
def stripFence (responseText : List Char) : List Char :=
  match indexOfFrom tripleBacktick responseText 0 with
  | some s =>
    match indexOfFrom tripleBacktick responseText (s + 3) with
    | some e =>
      let inner := (responseText.drop (s + 3)).take (e - (s + 3))
      if "json".data.isPrefixOf inner then inner.drop 4 else inner
    | none => responseText
  | none => responseText

/-- Slice from the first `{` to the last `}` (failing like the source when a
brace is missing or they cross), clean up trailing commas, parse. -/
def sliceAndParse (jsonStr : List Char) : Option Json :=
  match jsonStr.findIdx? (fun c => c == '{'), lastBraceIdx jsonStr with
  | some a, some b =>
    if b < a then none
    else jsonParse (repl ']' (repl '}' ((jsonStr.drop a).take (b + 1 - a))))
  | _, _ => none

/-- The whole extraction step of the route handler's `POST`. -/
def extractChars (responseText : List Char) : Option Json :=
  sliceAndParse (stripFence responseText)

/-- How the claim embeds the serialisation into the raw model output: bare in
surrounding prose, or wrapped in a triple-backtick fence with or without a
`json` language tag. -/
inductive FenceWrap where
  | bare : FenceWrap
  | fenced (tag : Bool) : FenceWrap

/-- Build the raw response text for one embedding shape. -/
def embedText (w : FenceWrap) (p1 p2 s : List Char) : List Char :=
  match w with
  | .bare => p1 ++ s ++ p2
  | .fenced tag =>
    p1 ++ tripleBacktick ++ (if tag then "json\n".data else "\n".data) ++ s ++
      '\n' :: (tripleBacktick ++ p2)

/-- Conditions on the surrounding prose under which extraction is exact:
no backticks anywhere in the prose, and in the bare case no `{` before the
payload and no `}` after it. -/
def proseOK (w : FenceWrap) (p1 p2 : List Char) : Prop :=
  match w with
  | .bare => backtick ∉ p1 ∧ backtick ∉ p2 ∧ '{' ∉ p1 ∧ '}' ∉ p2
  | .fenced _ => backtick ∉ p1

/-- The object whose canonical serialisation refutes the round-trip claim. -/
def cexJson : Json := Json.obj (JsonFields.cons "a" (Json.str ",\x7d") JsonFields.nil)

/-- The `JSON.stringify` output of `cexJson`. -/
def cexSer : List Char := "\x7b\"a\":\",\x7d\"\x7d".data

/-- The serialisation `cexSer` embedded in benign prose (no braces, no backticks). -/
def cexText : List Char := "Here is the result: ".data ++ cexSer ++ ".".data

/-- A concrete object and serialisation used by the amended-claim witness. -/
def witJson : Json := Json.obj (JsonFields.cons "key" (Json.str "value") JsonFields.nil)

/-- A serialisation of `witJson`. -/
def witSer : List Char := "\x7b\"key\":\"value\"\x7d".data

/-! ## Theorems -/

theorem inWindow_of_le {a b now : Nat} (h : a ≤ b) (ha : inWindow a now = true) :
    inWindow b now = true := by
  simp only [inWindow, decide_eq_true_eq] at *
  omega

theorem not_inWindow_of_le {a b now : Nat} (h : a ≤ b) (hb : inWindow b now = false) :
    inWindow a now = false := by
  simp only [inWindow, decide_eq_false_iff_not, decide_eq_true_eq] at *
  omega

theorem logical_length (e : RLEntry) : (logical e).length = e.count := by
  simp [logical]

theorem validCount_eq (e : RLEntry) (now : Nat) :
    validCount e now = (logical e).countP fun ts => inWindow ts now := by
  unfold validCount logical
  rw [List.countP_map, List.countP_eq_length_filter]
  rfl

theorem log_drop (acc : List Nat) (e : RLEntry) (hinv : RLInv acc e) :
    logical e = acc.drop (acc.length - RATE_LIMIT_MAX) := by
  rw [hinv.log, hinv.cnt]
  congr 1
  omega

theorem drop_window_iff (acc : List Nat) (now : Nat)
    (hs : List.Pairwise (· ≤ ·) acc) :
    ((acc.drop (acc.length - RATE_LIMIT_MAX)).countP (fun ts => inWindow ts now)
        < RATE_LIMIT_MAX)
      ↔ acceptedInWindow acc now < RATE_LIMIT_MAX := by
  rcases le_or_lt acc.length RATE_LIMIT_MAX with hle | hgt
  · rw [Nat.sub_eq_zero_of_le hle, List.drop_zero]
    exact Iff.rfl
  · set k := acc.length - RATE_LIMIT_MAX with hk
    constructor
    · intro hdrop
      have hsplit : acceptedInWindow acc now =
          (acc.take k).countP (fun ts => inWindow ts now) +
            (acc.drop k).countP (fun ts => inWindow ts now) := by
        unfold acceptedInWindow
        conv_lhs => rw [← List.take_append_drop k acc]
        rw [List.countP_append]
      have hlen_drop : (acc.drop k).length = RATE_LIMIT_MAX := by
        rw [List.length_drop]
        omega
      have hnotall : ¬ ∀ x ∈ acc.drop k, inWindow x now = true := by
        intro hall
        have := List.countP_eq_length.mpr hall
        omega
      push_neg at hnotall
      obtain ⟨x, hx, hxw⟩ := hnotall
      have hxw' : inWindow x now = false := by
        cases hxval : inWindow x now
        · rfl
        · exact absurd hxval hxw
      have hcross : ∀ y ∈ acc.take k, ∀ b ∈ acc.drop k, y ≤ b := by
        have := hs
        conv at this => rw [← List.take_append_drop k acc]
        exact (List.pairwise_append.mp this).2.2
      have htake : (acc.take k).countP (fun ts => inWindow ts now) = 0 := by
        apply List.countP_eq_zero.mpr
        intro y hy
        have : inWindow y now = false := not_inWindow_of_le (hcross y hy x hx) hxw'
        simp [this]
      omega
    · intro hacc
      have := (List.drop_sublist k acc).countP_le (fun ts => inWindow ts now)
      unfold acceptedInWindow at hacc
      omega

theorem checkRateLimit_branches (e : RLEntry) (now : Nat) :
    ((checkRateLimit e now).1 = false ∧ (checkRateLimit e now).2 = e) ∨
      ((checkRateLimit e now).1 = true ∧
        (checkRateLimit e now).2 =
          { timestamps := e.timestamps.set e.head now
            head := (e.head + 1) % RATE_LIMIT_MAX
            count := min (e.count + 1) RATE_LIMIT_MAX }) := by
  unfold checkRateLimit
  split
  · exact Or.inl ⟨rfl, rfl⟩
  · split
    · exact Or.inl ⟨rfl, rfl⟩
    · exact Or.inr ⟨rfl, rfl⟩

theorem logical_cons_of_full (e : RLEntry) (hc : e.count = RATE_LIMIT_MAX) :
    logical e =
      e.timestamps.getD (oldestIndex e) 0 ::
        (List.range 19).map
          (fun i => e.timestamps.getD (slotIdx e (Nat.succ i)) 0) := by
  unfold logical
  rw [hc]
  rw [show List.range RATE_LIMIT_MAX = 0 :: List.map Nat.succ (List.range 19) from
    List.range_succ_eq_map 19]
  simp only [List.map_cons, List.map_map]
  congr 1

theorem decision_eq (acc : List Nat) (e : RLEntry) (now : Nat)
    (hinv : RLInv acc e) (hs : List.Pairwise (· ≤ ·) acc) :
    (checkRateLimit e now).1 = (specStep acc now).1 := by
  have hlogdrop := log_drop acc e hinv
  have hiff := drop_window_iff acc now hs
  rw [← hlogdrop] at hiff
  have hvc := validCount_eq e now
  unfold checkRateLimit specStep
  split
  · -- fast path: buffer full and the oldest slot still in-window
    rename_i hfast
    obtain ⟨hcntge, hwin⟩ := hfast
    have hcnt20 : e.count = RATE_LIMIT_MAX := by
      have := hinv.cnt
      unfold RATE_LIMIT_MAX at *
      omega
    have hlog_cons := logical_cons_of_full e hcnt20
    have hpair : List.Pairwise (· ≤ ·) (logical e) := by
      rw [hlogdrop]
      exact hs.sublist (List.drop_sublist _ _)
    have hall : ∀ x ∈ logical e, inWindow x now = true := by
      intro x hx
      rw [hlog_cons] at hx hpair
      rcases List.mem_cons.mp hx with hx0 | hxtl
      · rw [hx0]; exact hwin
      · exact inWindow_of_le (List.rel_of_pairwise_cons hpair hxtl) hwin
    have hcount : (logical e).countP (fun ts => inWindow ts now) = RATE_LIMIT_MAX := by
      rw [List.countP_eq_length.mpr hall, logical_length, hcnt20]
    split
    · rename_i hspec
      rw [← hiff] at hspec
      omega
    · rfl
  · split
    · -- slow path rejects: at least RATE_LIMIT_MAX valid entries
      rename_i hge
      rw [hvc] at hge
      split
      · rename_i hspec
        rw [← hiff] at hspec
        omega
      · rfl
    · -- slow path accepts
      rename_i hlt
      rw [hvc] at hlt
      push_neg at hlt
      split
      · rfl
      · rename_i hspec
        rw [← hiff] at hspec
        omega

theorem logical_update_lt (e : RLEntry) (now : Nat)
    (hlen : e.timestamps.length = RATE_LIMIT_MAX)
    (hh : e.head < RATE_LIMIT_MAX) (hc : e.count < RATE_LIMIT_MAX) :
    logical { timestamps := e.timestamps.set e.head now
              head := (e.head + 1) % RATE_LIMIT_MAX
              count := min (e.count + 1) RATE_LIMIT_MAX } = logical e ++ [now] := by
  have hmin : min (e.count + 1) RATE_LIMIT_MAX = e.count + 1 := by
    unfold RATE_LIMIT_MAX at *
    omega
  unfold logical
  simp only [hmin]
  rw [show List.range (e.count + 1) = List.range e.count ++ [e.count] from
    List.range_succ e.count]
  rw [List.map_append]
  congr 1
  · apply List.map_congr_left
    intro i hi
    have hilt : i < e.count := List.mem_range.mp hi
    show (e.timestamps.set e.head now).getD
        (slotIdx ⟨e.timestamps.set e.head now, (e.head + 1) % RATE_LIMIT_MAX, e.count + 1⟩ i) 0 =
      e.timestamps.getD (slotIdx e i) 0
    have hidx : slotIdx ⟨e.timestamps.set e.head now, (e.head + 1) % RATE_LIMIT_MAX, e.count + 1⟩ i
        = slotIdx e i := by
      unfold slotIdx RATE_LIMIT_MAX at *
      simp only
      omega
    have hne : slotIdx e i ≠ e.head := by
      unfold slotIdx RATE_LIMIT_MAX at *
      omega
    rw [hidx]
    simp only [List.getD_eq_getElem?_getD]
    rw [List.getElem?_set_ne (fun hcontra => hne hcontra.symm)]
  · show [(e.timestamps.set e.head now).getD
        (slotIdx ⟨e.timestamps.set e.head now, (e.head + 1) % RATE_LIMIT_MAX, e.count + 1⟩ e.count) 0]
      = [now]
    have hidx : slotIdx ⟨e.timestamps.set e.head now, (e.head + 1) % RATE_LIMIT_MAX, e.count + 1⟩ e.count
        = e.head := by
      unfold slotIdx RATE_LIMIT_MAX at *
      simp only
      omega
    rw [hidx]
    simp only [List.getD_eq_getElem?_getD]
    rw [List.getElem?_set_self (by rw [hlen]; exact hh)]
    rfl

theorem logical_update_full (e : RLEntry) (now : Nat)
    (hlen : e.timestamps.length = RATE_LIMIT_MAX)
    (hh : e.head < RATE_LIMIT_MAX) (hc : e.count = RATE_LIMIT_MAX) :
    logical { timestamps := e.timestamps.set e.head now
              head := (e.head + 1) % RATE_LIMIT_MAX
              count := min (e.count + 1) RATE_LIMIT_MAX } =
      (logical e).drop 1 ++ [now] := by
  have hmin : min (RATE_LIMIT_MAX + 1) RATE_LIMIT_MAX = RATE_LIMIT_MAX := by
    unfold RATE_LIMIT_MAX
    omega
  unfold logical
  simp only [hc, hmin]
  conv_lhs =>
    rw [show List.range RATE_LIMIT_MAX = List.range 19 ++ [19] from List.range_succ 19]
  conv_rhs =>
    rw [show List.range RATE_LIMIT_MAX = 0 :: List.map Nat.succ (List.range 19) from
      List.range_succ_eq_map 19]
  rw [List.map_append]
  simp only [List.map_cons, List.drop_succ_cons, List.drop_zero, List.map_map]
  congr 1
  · apply List.map_congr_left
    intro i hi
    have hilt : i < 19 := List.mem_range.mp hi
    show (e.timestamps.set e.head now).getD
        (slotIdx ⟨e.timestamps.set e.head now, (e.head + 1) % RATE_LIMIT_MAX, RATE_LIMIT_MAX⟩ i) 0 =
      e.timestamps.getD (slotIdx e (Nat.succ i)) 0
    have hidx : slotIdx ⟨e.timestamps.set e.head now, (e.head + 1) % RATE_LIMIT_MAX, RATE_LIMIT_MAX⟩ i
        = slotIdx e (Nat.succ i) := by
      unfold slotIdx RATE_LIMIT_MAX at *
      simp only
      omega
    have hne : slotIdx e (Nat.succ i) ≠ e.head := by
      unfold slotIdx RATE_LIMIT_MAX at *
      omega
    rw [hidx]
    simp only [List.getD_eq_getElem?_getD]
    rw [List.getElem?_set_ne (fun hcontra => hne hcontra.symm)]
  · show [(e.timestamps.set e.head now).getD
        (slotIdx ⟨e.timestamps.set e.head now, (e.head + 1) % RATE_LIMIT_MAX, RATE_LIMIT_MAX⟩ 19) 0]
      = [now]
    have hidx : slotIdx ⟨e.timestamps.set e.head now, (e.head + 1) % RATE_LIMIT_MAX, RATE_LIMIT_MAX⟩ 19
        = e.head := by
      unfold slotIdx RATE_LIMIT_MAX at *
      simp only
      omega
    rw [hidx]
    simp only [List.getD_eq_getElem?_getD]
    rw [List.getElem?_set_self (by rw [hlen]; exact hh)]
    rfl

theorem inv_update (acc : List Nat) (e : RLEntry) (now : Nat) (hinv : RLInv acc e) :
    RLInv (acc ++ [now])
      { timestamps := e.timestamps.set e.head now
        head := (e.head + 1) % RATE_LIMIT_MAX
        count := min (e.count + 1) RATE_LIMIT_MAX } := by
  have hlen := hinv.len
  have hhd := hinv.hd
  have hcnt := hinv.cnt
  have hlog := hinv.log
  have hhlt : e.head < RATE_LIMIT_MAX := by
    rw [hhd]
    unfold RATE_LIMIT_MAX
    omega
  refine ⟨?_, ?_, ?_, ?_⟩
  · simpa [List.length_set] using hlen
  · simp only [List.length_append, List.length_singleton]
    unfold RATE_LIMIT_MAX at *
    omega
  · simp only [List.length_append, List.length_singleton]
    unfold RATE_LIMIT_MAX at *
    omega
  · rcases Nat.lt_or_ge e.count RATE_LIMIT_MAX with hclt | hcge
    · -- buffer not yet full: the logical view was all of `acc` and grows by one
      have hLeq : acc.length = e.count := by
        unfold RATE_LIMIT_MAX at *
        omega
      rw [logical_update_lt e now hlen hhlt hclt]
      have hdrop0 : acc.length - e.count = 0 := by omega
      rw [hdrop0, List.drop_zero] at hlog
      rw [hlog]
      show acc ++ [now] = (acc ++ [now]).drop ((acc ++ [now]).length - min (e.count + 1) RATE_LIMIT_MAX)
      have : (acc ++ [now]).length - min (e.count + 1) RATE_LIMIT_MAX = 0 := by
        simp only [List.length_append, List.length_singleton]
        unfold RATE_LIMIT_MAX at *
        omega
      rw [this, List.drop_zero]
    · -- buffer full: the overwritten slot leaves the logical view
      have hc20 : e.count = RATE_LIMIT_MAX := by
        unfold RATE_LIMIT_MAX at *
        omega
      rw [logical_update_full e now hlen hhlt hc20]
      rw [hlog, List.drop_drop]
      show acc.drop (acc.length - e.count + 1) ++ [now] =
        (acc ++ [now]).drop ((acc ++ [now]).length - min (e.count + 1) RATE_LIMIT_MAX)
      have hrhs : (acc ++ [now]).drop ((acc ++ [now]).length - min (e.count + 1) RATE_LIMIT_MAX) =
          acc.drop ((acc ++ [now]).length - min (e.count + 1) RATE_LIMIT_MAX) ++ [now] := by
        apply List.drop_append_of_le_length
        simp only [List.length_append, List.length_singleton]
        unfold RATE_LIMIT_MAX at *
        omega
      rw [hrhs]
      congr 2
      simp only [List.length_append, List.length_singleton]
      unfold RATE_LIMIT_MAX at *
      omega

theorem run_sim (ts : List Nat) : ∀ (acc : List Nat) (e : RLEntry),
    RLInv acc e → List.Pairwise (· ≤ ·) acc →
    (∀ a ∈ acc, ∀ t ∈ ts, a ≤ t) → List.Pairwise (· ≤ ·) ts →
    runRing e ts = runSpec acc ts := by
  induction ts with
  | nil => intro acc e _ _ _ _; rfl
  | cons t ts ih =>
    intro acc e hinv hs hbound hts
    have hdec := decision_eq acc e t hinv hs
    have hts' := (List.pairwise_cons.mp hts).2
    have htle : ∀ u ∈ ts, t ≤ u := (List.pairwise_cons.mp hts).1
    unfold runRing runSpec
    rw [hdec]
    congr 1
    rcases checkRateLimit_branches e t with ⟨hb1, hb2⟩ | ⟨hb1, hb2⟩
    · -- rejected on both sides
      have hspec1 : (specStep acc t).1 = false := by rw [← hdec, hb1]
      have hspec2 : (specStep acc t).2 = acc := by
        unfold specStep at hspec1 ⊢
        split at hspec1
        case isTrue h => exact absurd hspec1 (by trivial)
        case isFalse h => rw [if_neg h]
      rw [hb2, hspec2]
      exact ih acc e hinv hs (fun a ha u hu => hbound a ha u (List.mem_cons_of_mem t hu)) hts'
    · -- accepted on both sides
      have hspec1 : (specStep acc t).1 = true := by rw [← hdec, hb1]
      have hspec2 : (specStep acc t).2 = acc ++ [t] := by
        unfold specStep at hspec1 ⊢
        split at hspec1
        case isTrue h => rw [if_pos h]
        case isFalse h => exact absurd hspec1 (by trivial)
      rw [hb2, hspec2]
      apply ih (acc ++ [t]) _ (inv_update acc e t hinv)
      · rw [List.pairwise_append]
        refine ⟨hs, List.pairwise_singleton _ _, ?_⟩
        intro a ha b hb
        rw [List.mem_singleton.mp hb]
        exact hbound a ha t (List.mem_cons_self t ts)
      · intro a ha u hu
        rcases List.mem_append.mp ha with haa | hat
        · exact hbound a haa u (List.mem_cons_of_mem t hu)
        · rw [List.mem_singleton.mp hat]
          exact htle u hu
      · exact hts'

theorem init_inv : RLInv [] initEntry := by
  refine ⟨?_, rfl, rfl, ?_⟩
  · simp [initEntry]
  · rfl

/-- The claim states the ring-buffer limiter's behaviour through the history of
previously accepted timestamps: with nondecreasing call times, a call is
accepted exactly when fewer than `RATE_LIMIT_MAX = 20` previously accepted
requests have timestamps inside the trailing `RATE_LIMIT_WINDOW = 60000` ms
window, and rejected exactly when 20 previously accepted requests lie within
that window.  `runSpec` is that reference semantics; `runRing` is the
ring-buffer implementation. -/
theorem ringBuffer_matches_slidingWindow (ts : List Nat)
    (hts : List.Pairwise (· ≤ ·) ts) :
    runRing initEntry ts = runSpec [] ts :=
  run_sim ts [] initEntry init_inv (List.Pairwise.nil) (by simp) hts

theorem ringBuffer_matches_slidingWindow_witness :
    List.Pairwise (· ≤ ·) (List.replicate 21 100 ++ [59999, 60000]) ∧
      runRing initEntry (List.replicate 21 100 ++ [59999, 60000]) =
        runSpec [] (List.replicate 21 100 ++ [59999, 60000]) :=
  ⟨by decide,
    ringBuffer_matches_slidingWindow (List.replicate 21 100 ++ [59999, 60000]) (by decide)⟩

/-- Implicit claim: whenever the ring-buffer limiter rejects (`checkRateLimit`
returns `false`), the entry — timestamps array, head cursor and count — is left
exactly as it was, so rejected requests never consume rate-limit budget. -/
theorem checkRateLimit_reject_preserves_entry (e : RLEntry) (now : Nat)
    (hrej : (checkRateLimit e now).1 = false) :
    (checkRateLimit e now).2 = e := by
  rcases checkRateLimit_branches e now with ⟨_, hb2⟩ | ⟨hb1, _⟩
  · exact hb2
  · rw [hb1] at hrej
    exact absurd hrej (by trivial)

theorem checkRateLimit_reject_preserves_entry_witness :
    (checkRateLimit ⟨List.replicate 20 100, 0, 20⟩ 100).1 = false ∧
      (checkRateLimit ⟨List.replicate 20 100, 0, 20⟩ 100).2 = ⟨List.replicate 20 100, 0, 20⟩ :=
  ⟨by decide, checkRateLimit_reject_preserves_entry ⟨List.replicate 20 100, 0, 20⟩ 100 (by decide)⟩

theorem filter_inWindow_idem {l : List Nat} {t u : Nat} (htu : t ≤ u) :
    (l.filter fun a => inWindow a t).filter (fun a => inWindow a u) =
      l.filter fun a => inWindow a u := by
  rw [List.filter_filter]
  apply List.filter_congr
  intro a _
  cases hu : inWindow a u
  · simp
  · simp only [Bool.true_and]
    unfold inWindow at *
    simp only [decide_eq_true_eq] at *
    omega

theorem simple_sim (ts : List Nat) : ∀ requests acc : List Nat,
    (∀ u ∈ ts, requests.filter (fun a => inWindow a u) = acc.filter (fun a => inWindow a u)) →
    List.Pairwise (· ≤ ·) ts →
    runSimple requests ts = runSpec acc ts := by
  induction ts with
  | nil => intro requests acc _ _; rfl
  | cons t ts ih =>
    intro requests acc hagree hts
    have hts' := (List.pairwise_cons.mp hts).2
    have htle : ∀ u ∈ ts, t ≤ u := (List.pairwise_cons.mp hts).1
    have hfeq := hagree t (List.mem_cons_self t ts)
    have hdec : (checkRateLimitSimple requests t).1 = (specStep acc t).1 := by
      unfold checkRateLimitSimple specStep acceptedInWindow
      simp only [hfeq, List.countP_eq_length_filter]
      rcases le_or_lt RATE_LIMIT_MAX (acc.filter (fun a => inWindow a t)).length with hge | hlt
      · rw [if_pos hge, if_neg (by omega)]
      · rw [if_neg (by omega), if_pos (by omega)]
    unfold runSimple runSpec
    rw [hdec]
    congr 1
    rcases le_or_lt RATE_LIMIT_MAX (acc.filter (fun a => inWindow a t)).length with hge | hlt
    · -- rejected: stored list is refiltered, history unchanged
      have hst : (checkRateLimitSimple requests t).2 = requests.filter fun a => inWindow a t := by
        unfold checkRateLimitSimple
        rw [if_pos (by rw [hfeq]; exact hge)]
      have hsp : (specStep acc t).2 = acc := by
        unfold specStep acceptedInWindow
        rw [if_neg (by rw [List.countP_eq_length_filter]; omega)]
      rw [hst, hsp]
      apply ih _ _ _ hts'
      intro u hu
      rw [filter_inWindow_idem (htle u hu)]
      exact hagree u (List.mem_cons_of_mem t hu)
    · -- accepted: both sides gain the timestamp `t`
      have hst : (checkRateLimitSimple requests t).2 =
          (requests.filter fun a => inWindow a t) ++ [t] := by
        unfold checkRateLimitSimple
        rw [if_neg (by rw [hfeq]; omega)]
      have hsp : (specStep acc t).2 = acc ++ [t] := by
        unfold specStep acceptedInWindow
        rw [if_pos (by rw [List.countP_eq_length_filter]; omega)]
      rw [hst, hsp]
      apply ih _ _ _ hts'
      intro u hu
      rw [List.filter_append, List.filter_append, filter_inWindow_idem (htle u hu)]
      rw [hagree u (List.mem_cons_of_mem t hu)]

/-- The open-question claim: over any nondecreasing sequence of call times, the
simple full-rescan limiter (`runSimple`, array refiltered each call) and the
optimised fixed-capacity ring-buffer limiter (`runRing`) return the same
accept/reject decision at every call. -/
theorem simple_and_ring_limiter_agree (ts : List Nat)
    (hts : List.Pairwise (· ≤ ·) ts) :
    runSimple [] ts = runRing initEntry ts := by
  rw [run_sim ts [] initEntry init_inv List.Pairwise.nil (by simp) hts]
  exact simple_sim ts [] [] (fun u _ => rfl) hts

theorem simple_and_ring_limiter_agree_witness :
    List.Pairwise (· ≤ ·) (List.replicate 21 100 ++ [59999, 60000]) ∧
      runSimple [] (List.replicate 21 100 ++ [59999, 60000]) =
        runRing initEntry (List.replicate 21 100 ++ [59999, 60000]) :=
  ⟨by decide,
    simple_and_ring_limiter_agree (List.replicate 21 100 ++ [59999, 60000]) (by decide)⟩

theorem claimContextPieces_eq (answers : List (String × String)) (qs : List Question) :
    claimContextPieces answers qs =
      (qs.filter (answeredB answers)).map fun q =>
        "Q: " ++ q.question ++ "\nA: " ++ ((answers.lookup q.id).getD "") := by
  induction qs with
  | nil => rfl
  | cons q rest ih =>
    unfold claimContextPieces
    cases hq : answeredB answers q
    · rw [if_neg (by simp)]
      rw [List.filter_cons_of_neg (by simp [hq])]
      exact ih
    · rw [if_pos rfl]
      rw [List.filter_cons_of_pos (by simp [hq])]
      rw [List.map_cons]
      exact congrArg _ ih

theorem lookup_filter_of_pred (l : List (String × String)) (p : String → Bool)
    (k : String) (hk : p k = true) :
    (l.filter fun kv => p kv.1).lookup k = l.lookup k := by
  induction l with
  | nil => rfl
  | cons a rest ih =>
    by_cases hka : k = a.1
    · subst hka
      rw [List.filter_cons_of_pos (by simpa using hk)]
      simp [List.lookup]
    · cases hpa : p a.1
      · rw [List.filter_cons_of_neg (by simp [hpa])]
        rw [ih]
        have : (k == a.1) = false := by simp [hka]
        simp [List.lookup, this]
      · rw [List.filter_cons_of_pos (by simp [hpa])]
        have : (k == a.1) = false := by simp [hka]
        simp [List.lookup, this]
        exact ih

/-- The claim: the additional-context string sent by the generate and
regenerate operations equals the concatenation, in original question order, of
`"Q: <question>\nA: <answer>"` for exactly the questions whose answer has
non-empty trimmed text, joined by blank lines; and answer entries whose key
matches no question id of the current critique never influence the string. -/
theorem additionalContext_matches_claim (c : Critique) (answers : List (String × String)) :
    buildAdditionalContext (some c) answers = claimContext c.questions answers ∧
    buildAdditionalContext (some c) answers =
      buildAdditionalContext (some c)
        (answers.filter fun kv => (c.questions.map Question.id).contains kv.1) ∧
    ∀ (s : Session) (g : GenerateOutcome),
      (runGenerate s g).2 = buildAdditionalContext s.critique s.answers ∧
      ∀ v m, (regenerateForModel s v m g).2 = buildAdditionalContext s.critique s.answers := by
  refine ⟨?_, ?_, ?_⟩
  · simp only [buildAdditionalContext, claimContext]
    rw [claimContextPieces_eq]
    split
    · rename_i hemp
      rw [List.isEmpty_iff.mp hemp]
      rfl
    · rfl
  · have hlook : ∀ q ∈ c.questions,
        (answers.filter fun kv => (c.questions.map Question.id).contains kv.1).lookup q.id =
          answers.lookup q.id := by
      intro q hq
      apply lookup_filter_of_pred
      have hmem : q.id ∈ c.questions.map Question.id := List.mem_map.mpr ⟨q, hq, rfl⟩
      simpa using hmem
    have hans : ∀ q ∈ c.questions,
        answeredB (answers.filter fun kv => (c.questions.map Question.id).contains kv.1) q =
          answeredB answers q := by
      intro q hq
      unfold answeredB
      rw [hlook q hq]
    simp only [buildAdditionalContext]
    rw [List.filter_congr hans]
    have hmap : ∀ qs' : List Question, (∀ q ∈ qs', q ∈ c.questions) →
        (qs'.map fun q => "Q: " ++ q.question ++ "\nA: " ++
            (((answers.filter fun kv => (c.questions.map Question.id).contains kv.1).lookup q.id).getD "")) =
          qs'.map fun q => "Q: " ++ q.question ++ "\nA: " ++ ((answers.lookup q.id).getD "") := by
      intro qs' hsub
      apply List.map_congr_left
      intro q hq
      rw [hlook q (hsub q hq)]
    rw [hmap (c.questions.filter (answeredB answers))
      (fun q hq => (List.mem_filter.mp hq).1)]
  · intro s g
    cases g
    · exact ⟨rfl, fun v m => rfl⟩
    · exact ⟨rfl, fun v m => rfl⟩

/-- The claim: invoking `submitCritique` (`runCritique`) with input whose
trimmed length is below 5 always reports the validation failure, performs no
remote call, and leaves every other part of the session state unchanged. -/
theorem submitCritique_short_input_rejected (s : Session) (o : CritiqueOutcome)
    (hshort : (jsTrim s.inputText).length < 5) :
    runCritique s o = ({ s with error := "Please provide more detail." }, false) := by
  unfold runCritique
  rw [if_pos (Or.inr hshort)]

theorem submitCritique_short_input_rejected_witness :
    (jsTrim sampleSession.inputText).length < 5 ∧
      runCritique sampleSession (CritiqueOutcome.fail "boom") =
        ({ sampleSession with error := "Please provide more detail." }, false) :=
  ⟨by decide,
    submitCritique_short_input_rejected sampleSession (CritiqueOutcome.fail "boom") (by decide)⟩

/-- The claim: in `result` phase, `switchModel` (a vendor or model change)
immediately raises `isRegenerating` and adopts the new vendor/model; on
successful completion the result is replaced in place, `isRegenerating` is
back to `false`, and `phase` still equals `result` — regeneration never
changes `phase` at all. -/
theorem switchModel_regenerates_in_place (s : Session) (v m : String)
    (hphase : s.phase = Phase.result) :
    (regenBegin s v m).isRegenerating = true ∧
    (regenBegin s v m).selectedVendor = v ∧
    (regenBegin s v m).selectedModel = m ∧
    (∀ r : ResultObj,
      (regenerateForModel s v m (GenerateOutcome.ok r)).1.result = some r ∧
      (regenerateForModel s v m (GenerateOutcome.ok r)).1.isRegenerating = false ∧
      (regenerateForModel s v m (GenerateOutcome.ok r)).1.phase = Phase.result) ∧
    (∀ o, (regenerateForModel s v m o).1.phase = s.phase) ∧
    (∀ o, handleVendorChange s v o = (regenerateForModel s v (defaultModel v) o).1) ∧
    (∀ o, handleModelChange s m o = (regenerateForModel s s.selectedVendor m o).1) := by
  refine ⟨rfl, rfl, rfl, ?_, ?_, ?_, ?_⟩
  · intro r
    exact ⟨rfl, rfl, hphase⟩
  · intro o
    cases o <;> rfl
  · intro o
    unfold handleVendorChange
    rw [if_pos hphase]
  · intro o
    unfold handleModelChange
    rw [if_pos hphase]

theorem switchModel_regenerates_in_place_witness :
    sampleSession.phase = Phase.result ∧
    (regenBegin sampleSession "gemini" "Flash").isRegenerating = true ∧
    (regenerateForModel sampleSession "gemini" "Flash"
        (GenerateOutcome.ok sampleResult)).1.result = some sampleResult ∧
    (regenerateForModel sampleSession "gemini" "Flash"
        (GenerateOutcome.ok sampleResult)).1.phase = Phase.result :=
  ⟨rfl,
    (switchModel_regenerates_in_place sampleSession "gemini" "Flash" rfl).1,
    ((switchModel_regenerates_in_place sampleSession "gemini" "Flash" rfl).2.2.2.1
      sampleResult).1,
    ((switchModel_regenerates_in_place sampleSession "gemini" "Flash" rfl).2.2.2.1
      sampleResult).2.2⟩

/-- Implicit claim: when the remote call inside `regenerateForModel` fails, the
completed state holds the newly requested vendor and model while `result` and
`phase` are unchanged from before the call, `isRegenerating` is `false`, and
the error message is surfaced — the retained result is the one generated for
the previously selected vendor/model. -/
theorem regenerate_failure_keeps_previous_result (s : Session) (v m msg : String) :
    (regenerateForModel s v m (GenerateOutcome.fail msg)).1.selectedVendor = v ∧
    (regenerateForModel s v m (GenerateOutcome.fail msg)).1.selectedModel = m ∧
    (regenerateForModel s v m (GenerateOutcome.fail msg)).1.result = s.result ∧
    (regenerateForModel s v m (GenerateOutcome.fail msg)).1.phase = s.phase ∧
    (regenerateForModel s v m (GenerateOutcome.fail msg)).1.isRegenerating = false ∧
    (regenerateForModel s v m (GenerateOutcome.fail msg)).1.error = msg :=
  ⟨rfl, rfl, rfl, rfl, rfl, rfl⟩

/-- Counterexample to the claim: with `x-forwarded-for: notanip` and
`x-real-ip: 9.9.9.9`, the claimed preference order yields the real-IP address,
but the code's failed forwarded-for candidate falls through directly to the
fingerprint, never consulting the real-IP header. -/
theorem resolver_claim_counterexample :
    getClientIdentifier cexHeaders = "anon_" ∧
    claimResolve cexHeaders = "9.9.9.9" ∧
    getClientIdentifier cexHeaders ≠ claimResolve cexHeaders := by decide

/-- Amended claim: `resolve` uses the first comma-separated entry of the
forwarded-for header as the only forwarded-for candidate; when that header is
present with a non-empty first entry, a candidate failing both IP patterns
falls through directly to the fingerprint, never to the real-IP header, which
is consulted only when the forwarded-for header is absent or its first entry
is empty. -/
theorem resolver_matches_amended_claim (h : RequestHeaders) :
    getClientIdentifier h = amendedResolve h := by
  unfold getClientIdentifier amendedResolve
  cases hff : h.xForwardedFor
  · rfl
  · rfl


theorem burst_aux (events : List (Nat × String)) : ∀ (u : UIState) (id ft : Nat),
    u.sess.phase ≠ Phase.input →
    u.pendingRef = some id →
    u.timers = [(id, ft)] →
    (∀ q ∈ events.head?, q.1 < ft) →
    List.Chain' (fun a b : Nat × String => a.1 ≤ b.1 ∧ b.1 < a.1 + 300) events →
    (runEdits u events).2.1 = [finalFire ft events] ∧
    (runEdits u events).2.2 ≤ 1 ∧
    (runEdits u events).1.sess.phase = Phase.input ∧
    (runEdits u events).1.sess.critique = none ∧
    (runEdits u events).1.sess.answers = [] ∧
    (runEdits u events).1.sess.result = none ∧
    (runEdits u events).1.sess.inputText = finalText u.sess.inputText events ∧
    (runEdits u events).1.timers = [] := by
  induction events with
  | nil =>
    intro u id ft _ _ htimers _ _
    unfold runEdits
    simp [htimers, fireTimer, debounceReset, finalFire, finalText]
  | cons e rest ih =>
    intro u id ft hphase href htimers hhead hchain
    obtain ⟨t, txt⟩ := e
    have htlt : t < ft := hhead (t, txt) rfl
    have hdue : fireDue u t = (u, []) := by
      unfold fireDue
      rw [htimers]
      have hd : decide (ft ≤ t) = false := decide_eq_false (by omega)
      simp [hd]
    have hu2 : handleInputChange u txt t =
        ⟨{ u.sess with inputText := txt }, some u.nextId,
          [(u.nextId, t + 300)], u.nextId + 1⟩ := by
      unfold handleInputChange clearRefTimers
      rw [if_pos hphase, href, htimers]
      simp
    have hu2full : handleInputChange (fireDue u t).1 txt t =
        ⟨{ u.sess with inputText := txt }, some u.nextId,
          [(u.nextId, t + 300)], u.nextId + 1⟩ := by
      rw [hdue]
      exact hu2
    have hheadrest : ∀ q ∈ rest.head?, q.1 < t + 300 := by
      intro q hq
      cases rest with
      | nil => simp at hq
      | cons r rs =>
        simp only [List.head?_cons, Option.mem_def, Option.some.injEq] at hq
        subst hq
        exact ((List.chain'_cons.mp hchain).1).2
    have ihr := ih (handleInputChange (fireDue u t).1 txt t) u.nextId (t + 300)
      (by rw [hu2full]; exact hphase)
      (by rw [hu2full])
      (by rw [hu2full])
      hheadrest
      hchain.tail
    unfold runEdits
    refine ⟨?_, ?_, ?_, ?_, ?_, ?_, ?_, ?_⟩
    · show (fireDue u t).2 ++ (runEdits (handleInputChange (fireDue u t).1 txt t) rest).2.1 =
        [finalFire ft ((t, txt) :: rest)]
      rw [ihr.1, hdue]
      rfl
    · show max (max u.timers.length (handleInputChange (fireDue u t).1 txt t).timers.length)
        (runEdits (handleInputChange (fireDue u t).1 txt t) rest).2.2 ≤ 1
      have h22 := ihr.2.1
      have hlen2 : (handleInputChange (fireDue u t).1 txt t).timers.length = 1 := by
        rw [hu2full]
        rfl
      rw [htimers, hlen2]
      simp only [List.length_singleton]
      omega
    · exact ihr.2.2.1
    · exact ihr.2.2.2.1
    · exact ihr.2.2.2.2.1
    · exact ihr.2.2.2.2.2.1
    · show (runEdits (handleInputChange (fireDue u t).1 txt t) rest).1.sess.inputText =
        finalText u.sess.inputText ((t, txt) :: rest)
      rw [ihr.2.2.2.2.2.2.1]
      have htxt : (handleInputChange (fireDue u t).1 txt t).sess.inputText = txt := by
        rw [hu2full]
      rw [htxt]
      rfl
    · exact ihr.2.2.2.2.2.2.2

theorem foldl_fire_pend (ds : List (Nat × Nat)) : ∀ u : UIState,
    u.timers.length ≤ 1 → (∀ p ∈ u.timers, u.pendingRef = some p.1) →
    (ds.foldl (fun acc p => fireTimer acc p.1) u).timers.length ≤ 1 ∧
      ∀ p ∈ (ds.foldl (fun acc p => fireTimer acc p.1) u).timers,
        (ds.foldl (fun acc p => fireTimer acc p.1) u).pendingRef = some p.1 := by
  induction ds with
  | nil => intro u h1 h2; exact ⟨h1, h2⟩
  | cons d ds' ih =>
    intro u h1 h2
    apply ih
    · calc (fireTimer u d.1).timers.length
          ≤ u.timers.length := List.length_filter_le _ _
        _ ≤ 1 := h1
    · intro p hp
      have hp' : p ∈ u.timers := List.mem_of_mem_filter hp
      exact h2 p hp'

theorem edit_pend (u : UIState) (txt : String) (t : Nat)
    (h1 : u.timers.length ≤ 1) (h2 : ∀ p ∈ u.timers, u.pendingRef = some p.1) :
    (handleInputChange u txt t).timers.length ≤ 1 ∧
      ∀ p ∈ (handleInputChange u txt t).timers,
        (handleInputChange u txt t).pendingRef = some p.1 := by
  unfold handleInputChange
  split
  · have hclear : clearRefTimers u = [] := by
      unfold clearRefTimers
      cases href : u.pendingRef with
      | none =>
        cases htm : u.timers with
        | nil => rfl
        | cons q qs =>
          have := h2 q (htm ▸ List.mem_cons_self q qs)
          rw [href] at this
          exact absurd this (by simp)
      | some i =>
        apply List.eq_nil_iff_forall_not_mem.mpr
        intro p hp
        have hpm : p ∈ u.timers := List.mem_of_mem_filter hp
        have hrefp := h2 p hpm
        rw [href] at hrefp
        have hpi : p.1 = i := by
          simpa using hrefp.symm
        have := List.of_mem_filter hp
        simp [hpi] at this
    constructor
    · show (clearRefTimers u ++ [(u.nextId, t + 300)]).length ≤ 1
      rw [hclear]
      rfl
    · show ∀ p ∈ clearRefTimers u ++ [(u.nextId, t + 300)], some u.nextId = some p.1
      rw [hclear]
      intro p hp
      simp only [List.nil_append, List.mem_singleton] at hp
      rw [hp]
  · exact ⟨h1, h2⟩

theorem runEdits_maxPending (events : List (Nat × String)) : ∀ u : UIState,
    u.timers.length ≤ 1 → (∀ p ∈ u.timers, u.pendingRef = some p.1) →
    (runEdits u events).2.2 ≤ 1 := by
  induction events with
  | nil => intro u h1 _; exact h1
  | cons e rest ih =>
    intro u h1 h2
    obtain ⟨t, txt⟩ := e
    have hfd : (fireDue u t).1.timers.length ≤ 1 ∧
        ∀ p ∈ (fireDue u t).1.timers, (fireDue u t).1.pendingRef = some p.1 :=
      foldl_fire_pend _ u h1 h2
    have hu2 := edit_pend (fireDue u t).1 txt t hfd.1 hfd.2
    have hrest := ih (handleInputChange (fireDue u t).1 txt t) hu2.1 hu2.2
    show max (max u.timers.length (handleInputChange (fireDue u t).1 txt t).timers.length)
      (runEdits (handleInputChange (fireDue u t).1 txt t) rest).2.2 ≤ 1
    omega

theorem finalFire_getLastD (evs : List (Nat × String)) : ∀ d : Nat × String,
    finalFire (d.1 + 300) evs = (evs.getLastD d).1 + 300 := by
  induction evs with
  | nil => intro d; rfl
  | cons e rest ih =>
    intro d
    show finalFire (e.1 + 300) rest = ((e :: rest).getLastD d).1 + 300
    rw [List.getLastD_cons]
    exact ih e

theorem finalText_getLastD (evs : List (Nat × String)) : ∀ d : Nat × String,
    finalText d.2 evs = (evs.getLastD d).2 := by
  induction evs with
  | nil => intro d; rfl
  | cons e rest ih =>
    intro d
    show finalText e.2 rest = ((e :: rest).getLastD d).2
    rw [List.getLastD_cons]
    exact ih e

/-- The claim: while `phase ≠ input`, every `editInput` call updates
`inputText` immediately and (re)schedules a single 300 ms timer, cancelling
the pending one; over any nonempty burst of edits whose gaps are shorter than
300 ms, exactly one debounced reset back to `input` fires — clearing critique,
answers and result — at the last edit's time plus 300 ms; moreover over every
edit sequence whatsoever at most one debounce timer is ever pending. -/
theorem editInput_debounced_single_reset (s : Session) (e0 : Nat × String)
    (rest : List (Nat × String))
    (hphase : s.phase ≠ Phase.input)
    (hchain : List.Chain' (fun a b : Nat × String => a.1 ≤ b.1 ∧ b.1 < a.1 + 300)
      (e0 :: rest)) :
    (∀ (u : UIState) (text : String) (now : Nat),
      (handleInputChange u text now).sess.inputText = text) ∧
    (runEdits (startUI s) (e0 :: rest)).2.1 = [((e0 :: rest).getLastD e0).1 + 300] ∧
    (runEdits (startUI s) (e0 :: rest)).2.2 ≤ 1 ∧
    (runEdits (startUI s) (e0 :: rest)).1.sess.phase = Phase.input ∧
    (runEdits (startUI s) (e0 :: rest)).1.sess.critique = none ∧
    (runEdits (startUI s) (e0 :: rest)).1.sess.answers = [] ∧
    (runEdits (startUI s) (e0 :: rest)).1.sess.result = none ∧
    (runEdits (startUI s) (e0 :: rest)).1.sess.inputText = ((e0 :: rest).getLastD e0).2 ∧
    (runEdits (startUI s) (e0 :: rest)).1.timers = [] ∧
    ∀ events' : List (Nat × String), (runEdits (startUI s) events').2.2 ≤ 1 := by
  obtain ⟨t0, txt0⟩ := e0
  have himmediate : ∀ (u : UIState) (text : String) (now : Nat),
      (handleInputChange u text now).sess.inputText = text := by
    intro u text now
    unfold handleInputChange
    split <;> rfl
  have hdue0 : fireDue (startUI s) t0 = (startUI s, []) := by
    unfold fireDue startUI
    simp
  have hu20 : handleInputChange (fireDue (startUI s) t0).1 txt0 t0 =
      ⟨{ s with inputText := txt0 }, some 0, [(0, t0 + 300)], 1⟩ := by
    rw [hdue0]
    unfold handleInputChange clearRefTimers startUI
    rw [if_pos hphase]
    rfl
  have hheadrest : ∀ q ∈ rest.head?, q.1 < t0 + 300 := by
    intro q hq
    cases rest with
    | nil => simp at hq
    | cons r rs =>
      simp only [List.head?_cons, Option.mem_def, Option.some.injEq] at hq
      subst hq
      exact ((List.chain'_cons.mp hchain).1).2
  have hb := burst_aux rest (handleInputChange (fireDue (startUI s) t0).1 txt0 t0) 0 (t0 + 300)
    (by rw [hu20]; exact hphase)
    (by rw [hu20])
    (by rw [hu20])
    hheadrest
    hchain.tail
  refine ⟨himmediate, ?_, ?_, ?_, ?_, ?_, ?_, ?_, ?_, ?_⟩
  · show (fireDue (startUI s) t0).2 ++
        (runEdits (handleInputChange (fireDue (startUI s) t0).1 txt0 t0) rest).2.1 =
      [(((t0, txt0) :: rest).getLastD (t0, txt0)).1 + 300]
    rw [hb.1, hdue0, List.getLastD_cons]
    rw [show finalFire (t0 + 300) rest = (rest.getLastD (t0, txt0)).1 + 300 from
      finalFire_getLastD rest (t0, txt0)]
    rfl
  · show max (max (startUI s).timers.length
        (handleInputChange (fireDue (startUI s) t0).1 txt0 t0).timers.length)
      (runEdits (handleInputChange (fireDue (startUI s) t0).1 txt0 t0) rest).2.2 ≤ 1
    have h22 := hb.2.1
    have hlen2 : (handleInputChange (fireDue (startUI s) t0).1 txt0 t0).timers.length = 1 := by
      rw [hu20]
      rfl
    have hlen0 : (startUI s).timers.length = 0 := rfl
    rw [hlen0, hlen2]
    omega
  · exact hb.2.2.1
  · exact hb.2.2.2.1
  · exact hb.2.2.2.2.1
  · exact hb.2.2.2.2.2.1
  · show (runEdits (handleInputChange (fireDue (startUI s) t0).1 txt0 t0) rest).1.sess.inputText =
      (((t0, txt0) :: rest).getLastD (t0, txt0)).2
    rw [hb.2.2.2.2.2.2.1, List.getLastD_cons]
    have htxt : (handleInputChange (fireDue (startUI s) t0).1 txt0 t0).sess.inputText = txt0 := by
      rw [hu20]
    rw [htxt]
    exact finalText_getLastD rest (t0, txt0)
  · exact hb.2.2.2.2.2.2.2
  · intro events'
    exact runEdits_maxPending events' (startUI s) (by simp [startUI]) (by simp [startUI])

theorem editInput_debounced_single_reset_witness :
    sampleSession.phase ≠ Phase.input ∧
    (runEdits (startUI sampleSession) [(0, "a"), (100, "ab"), (200, "abc")]).2.1 = [500] ∧
    (runEdits (startUI sampleSession) [(0, "a"), (100, "ab"), (200, "abc")]).2.2 ≤ 1 ∧
    (runEdits (startUI sampleSession) [(0, "a"), (100, "ab"), (200, "abc")]).1.sess.phase =
      Phase.input ∧
    (runEdits (startUI sampleSession) [(0, "a"), (100, "ab"), (200, "abc")]).1.sess.inputText =
      "abc" := by
  have h := editInput_debounced_single_reset sampleSession (0, "a")
    [(100, "ab"), (200, "abc")] (by decide)
    (List.chain'_cons.mpr ⟨⟨by decide, by decide⟩,
      List.chain'_cons.mpr ⟨⟨by decide, by decide⟩, List.chain'_singleton _⟩⟩)
  exact ⟨by decide, h.2.1, h.2.2.1, h.2.2.2.1, h.2.2.2.2.2.2.2.1⟩

theorem drop_takeWhile_length (p : Char → Bool) :
    ∀ l : List Char, l.drop (l.takeWhile p).length = l.dropWhile p := by
  intro l
  induction l with
  | nil => rfl
  | cons c rest ih =>
    cases hpc : p c
    · simp [List.takeWhile_cons, List.dropWhile_cons, hpc]
    · simp [List.takeWhile_cons, List.dropWhile_cons, hpc, ih]

theorem replF_id (close : Char) : ∀ (fuel : Nat) (l : List Char),
    hasMatch close l = false → l.length ≤ fuel → replF close fuel l = l := by
  intro fuel
  induction fuel with
  | zero => intro l _ _; rfl
  | succ fuel ih =>
    intro l hm hlen
    cases l with
    | nil => rfl
    | cons c rest =>
      have hsplit : matchAt close (c :: rest) = false ∧ hasMatch close rest = false := by
        have : (matchAt close (c :: rest) || hasMatch close rest) = false := hm
        simpa [Bool.or_eq_false_iff] using this
      have hrest : rest.length ≤ fuel := by
        simp only [List.length_cons] at hlen
        omega
      unfold replF
      by_cases hc : c = ','
      · rw [if_pos hc]
        rw [drop_takeWhile_length]
        cases hdw : rest.dropWhile isJsWs with
        | nil =>
          rw [ih rest hsplit.2 hrest]
        | cons c2 tail =>
          have hne : c2 ≠ close := by
            have := hsplit.1
            rw [matchAt] at this
            rw [hdw] at this
            simp [hc] at this
            exact this
          show (if c2 = close then c2 :: replF close fuel tail
            else c :: replF close fuel rest) = c :: rest
          rw [if_neg hne]
          rw [ih rest hsplit.2 hrest]
      · rw [if_neg hc]
        rw [ih rest hsplit.2 hrest]

theorem tb_eq : tripleBacktick = [backtick, backtick, backtick] := by decide

theorem findSubAux_no_bt : ∀ l : List Char, backtick ∉ l →
    findSubAux tripleBacktick l = none := by
  intro l
  induction l with
  | nil => intro _; rfl
  | cons c rest ih =>
    intro hb
    have hcb : c ≠ backtick := fun h => hb (h ▸ List.mem_cons_self c rest)
    have hpre : tripleBacktick.isPrefixOf (c :: rest) = false := by
      rw [tb_eq]
      simp [List.isPrefixOf]
      intro h
      exact absurd h.symm hcb
    show (if tripleBacktick.isPrefixOf (c :: rest) = true then some 0
      else (findSubAux tripleBacktick rest).map (· + 1)) = none
    rw [hpre]
    simp only [Bool.false_eq_true, if_false]
    rw [ih (fun h => hb (List.mem_cons_of_mem c h))]
    rfl

theorem findSubAux_at_fence : ∀ (a : List Char) (rest' : List Char), backtick ∉ a →
    findSubAux tripleBacktick (a ++ backtick :: backtick :: backtick :: rest') =
      some a.length := by
  intro a
  induction a with
  | nil =>
    intro rest' _
    have hpre : tripleBacktick.isPrefixOf
        (backtick :: backtick :: backtick :: rest') = true := by
      rw [tb_eq]
      simp [List.isPrefixOf]
    rw [List.nil_append]
    show (if tripleBacktick.isPrefixOf (backtick :: backtick :: backtick :: rest') = true
      then some 0
      else (findSubAux tripleBacktick (backtick :: backtick :: rest')).map (· + 1)) =
      some ([] : List Char).length
    rw [hpre]
    rfl
  | cons c a' ih =>
    intro rest' hb
    have hcb : c ≠ backtick := fun h => hb (h ▸ List.mem_cons_self c a')
    have hpre : tripleBacktick.isPrefixOf
        (c :: (a' ++ backtick :: backtick :: backtick :: rest')) = false := by
      rw [tb_eq]
      simp [List.isPrefixOf]
      intro h
      exact absurd h.symm hcb
    rw [List.cons_append]
    show (if tripleBacktick.isPrefixOf
        (c :: (a' ++ backtick :: backtick :: backtick :: rest')) = true then some 0
      else (findSubAux tripleBacktick
        (a' ++ backtick :: backtick :: backtick :: rest')).map (· + 1)) =
      some (c :: a').length
    rw [hpre]
    simp only [Bool.false_eq_true, if_false]
    rw [ih rest' (fun h => hb (List.mem_cons_of_mem c h))]
    rfl

theorem findIdx_first_aux (p : Char → Bool) :
    ∀ (a : List Char) (c : Char) (b : List Char) (i : Nat),
    (∀ x ∈ a, p x = false) → p c = true →
    List.findIdx? p (a ++ c :: b) i = some (a.length + i) := by
  intro a
  induction a with
  | nil =>
    intro c b i _ hc
    rw [List.nil_append, List.findIdx?_cons, if_pos hc]
    simp
  | cons x a' ih =>
    intro c b i ha hc
    have hx : p x = false := ha x (List.mem_cons_self x a')
    rw [List.cons_append, List.findIdx?_cons]
    rw [if_neg (by simp [hx])]
    rw [ih c b (i + 1) (fun y hy => ha y (List.mem_cons_of_mem x hy)) hc]
    congr 1
    simp only [List.length_cons]
    omega

theorem findIdx_first (p : Char → Bool) (a : List Char) (c : Char) (b : List Char)
    (ha : ∀ x ∈ a, p x = false) (hc : p c = true) :
    (a ++ c :: b).findIdx? p = some a.length := by
  have := findIdx_first_aux p a c b 0 ha hc
  simpa using this

theorem lastBraceIdx_eq (pre post : List Char)
    (hpost : ∀ x ∈ post, (x == '}') = false) :
    lastBraceIdx (pre ++ '}' :: post) = some pre.length := by
  unfold lastBraceIdx
  have hrev : (pre ++ '}' :: post).reverse = post.reverse ++ '}' :: pre.reverse := by
    rw [List.reverse_append, List.reverse_cons]
    simp
  rw [hrev]
  rw [findIdx_first _ post.reverse '}' pre.reverse
    (fun x hx => hpost x (List.mem_reverse.mp hx)) (by simp)]
  simp only [Option.map_some', List.length_reverse, List.length_append, List.length_cons]
  congr 1
  omega

theorem sliceAndParse_exact (pre post s : List Char) (o : Json)
    (hpre : '{' ∉ pre) (hpost : '}' ∉ post)
    (smid : List Char) (hsm : s = '{' :: smid)
    (sinit : List Char) (hsi : s = sinit ++ ['}'])
    (hm1 : hasMatch '}' s = false) (hm2 : hasMatch ']' s = false)
    (hparse : jsonParse s = some o) :
    sliceAndParse (pre ++ s ++ post) = some o := by
  have ha : (pre ++ s ++ post).findIdx? (fun c => c == '{') = some pre.length := by
    rw [hsm]
    rw [show pre ++ ('{' :: smid) ++ post = pre ++ '{' :: (smid ++ post) by simp]
    exact findIdx_first _ pre '{' _
      (fun x hx => by
        simp only [beq_eq_false_iff_ne, ne_eq]
        intro h
        exact hpre (h ▸ hx))
      (by simp)
  have hb : lastBraceIdx (pre ++ s ++ post) = some (pre.length + sinit.length) := by
    rw [hsi]
    rw [show pre ++ (sinit ++ ['}']) ++ post = (pre ++ sinit) ++ '}' :: post by simp]
    rw [lastBraceIdx_eq (pre ++ sinit) post
      (fun x hx => by
        simp only [beq_eq_false_iff_ne, ne_eq]
        intro h
        exact hpost (h ▸ hx))]
    simp
  have hslen : s.length = sinit.length + 1 := by
    rw [hsi]
    simp
  unfold sliceAndParse
  simp only [ha, hb]
  rw [if_neg (by omega)]
  have hslice : ((pre ++ s ++ post).drop pre.length).take
      (pre.length + sinit.length + 1 - pre.length) = s := by
    rw [show pre ++ s ++ post = pre ++ (s ++ post) by simp]
    rw [List.drop_left]
    rw [show pre.length + sinit.length + 1 - pre.length = s.length by omega]
    exact List.take_left s post
  rw [hslice]
  rw [show repl '}' s = s from replF_id '}' s.length s hm1 (le_refl _)]
  rw [show repl ']' s = s from replF_id ']' s.length s hm2 (le_refl _)]
  exact hparse

theorem stripFence_no_bt (l : List Char) (hb : backtick ∉ l) : stripFence l = l := by
  unfold stripFence indexOfFrom
  simp [findSubAux_no_bt l hb]

theorem stripFence_fenced (p1 p2 s : List Char) (tag : Bool)
    (hp1 : backtick ∉ p1) (hs : backtick ∉ s) :
    stripFence (p1 ++ tripleBacktick ++ (if tag then "json\n".data else "\n".data) ++ s ++
      '\n' :: (tripleBacktick ++ p2)) = '\n' :: (s ++ ['\n']) := by
  set tagStr : List Char := if tag then "json\n".data else "\n".data with htag
  set content : List Char := tagStr ++ (s ++ ['\n']) with hcontent
  have hbt_tag : backtick ∉ tagStr := by
    rw [htag]
    cases tag <;> decide
  have hbt_content : backtick ∉ content := by
    rw [hcontent]
    intro hmem
    rcases List.mem_append.mp hmem with h1 | h2
    · exact hbt_tag h1
    · rcases List.mem_append.mp h2 with h3 | h4
      · exact hs h3
      · simp at h4
        exact absurd h4 (by decide)
  have hshape : p1 ++ tripleBacktick ++ tagStr ++ s ++ '\n' :: (tripleBacktick ++ p2) =
      p1 ++ backtick :: backtick :: backtick ::
        (content ++ backtick :: backtick :: backtick :: p2) := by
    rw [tb_eq, hcontent]
    simp
  unfold stripFence
  rw [hshape]
  have hopen : indexOfFrom tripleBacktick
      (p1 ++ backtick :: backtick :: backtick ::
        (content ++ backtick :: backtick :: backtick :: p2)) 0 = some p1.length := by
    unfold indexOfFrom
    rw [List.drop_zero]
    rw [findSubAux_at_fence p1 _ hp1]
    rfl
  have hdrop3 : (p1 ++ backtick :: backtick :: backtick ::
      (content ++ backtick :: backtick :: backtick :: p2)).drop (p1.length + 3) =
      content ++ backtick :: backtick :: backtick :: p2 := by
    rw [show p1 ++ backtick :: backtick :: backtick ::
        (content ++ backtick :: backtick :: backtick :: p2) =
        (p1 ++ [backtick, backtick, backtick]) ++
          (content ++ backtick :: backtick :: backtick :: p2) by simp]
    rw [show p1.length + 3 = (p1 ++ [backtick, backtick, backtick]).length by simp]
    exact List.drop_left _ _
  have hclose : indexOfFrom tripleBacktick
      (p1 ++ backtick :: backtick :: backtick ::
        (content ++ backtick :: backtick :: backtick :: p2)) (p1.length + 3) =
      some (content.length + (p1.length + 3)) := by
    unfold indexOfFrom
    rw [hdrop3]
    rw [findSubAux_at_fence content p2 hbt_content]
    rfl
  have hinner : ((p1 ++ backtick :: backtick :: backtick ::
      (content ++ backtick :: backtick :: backtick :: p2)).drop (p1.length + 3)).take
        (content.length + (p1.length + 3) - (p1.length + 3)) = content := by
    rw [hdrop3]
    rw [show content.length + (p1.length + 3) - (p1.length + 3) = content.length by omega]
    rw [show content ++ backtick :: backtick :: backtick :: p2 =
      content ++ (backtick :: backtick :: backtick :: p2) from rfl]
    exact List.take_left _ _
  simp only [hopen, hclose, hinner]
  cases tag with
  | true =>
    have hcontent' : content = 'j' :: 's' :: 'o' :: 'n' :: '\n' :: (s ++ ['\n']) := by
      rw [hcontent, htag]
      rfl
    rw [hcontent']
    rw [if_pos (by simp [List.isPrefixOf])]
    rfl
  | false =>
    have hcontent' : content = '\n' :: (s ++ ['\n']) := by
      rw [hcontent, htag]
      rfl
    rw [hcontent']
    rw [if_neg (by simp [List.isPrefixOf])]

/-- Counterexample to the round-trip claim: `cexJson` is a well-formed JSON
object, `cexSer` (its `JSON.stringify` output) parses back to it, yet embedded
in benign prose the extraction step returns a different object — the
trailing-comma cleanup rewrites the `,}` inside its string value. -/
theorem extractor_roundtrip_counterexample :
    jsonParse cexSer = some cexJson ∧
    extractChars cexText =
      some (Json.obj (JsonFields.cons "a" (Json.str "\x7d") JsonFields.nil)) ∧
    extractChars cexText ≠ some cexJson := by
  refine ⟨by decide, by decide, by decide⟩

/-- Amended round-trip claim: for every well-formed JSON object `o` (in the
embedded fragment) and serialisation `s` of it (any string the embedded
`JSON.parse` maps to `o`) that starts with `{`, ends with `}`, contains no
backtick and no comma-whitespace-`}` or comma-whitespace-`]` sequence, the
extraction step recovers exactly `o` when `s` is embedded bare in prose with
no backticks, no `{` in the leading prose and no `}` in the trailing prose,
or wrapped in a triple-backtick fence (with or without a `json` tag) whose
leading prose has no backticks. -/
theorem extractor_roundtrip_amended (o : Json) (s : List Char) (w : FenceWrap)
    (p1 p2 : List Char)
    (hparse : jsonParse s = some o)
    (hhead : s.head? = some '{')
    (hlast : s.getLast? = some '}')
    (hbt : backtick ∉ s)
    (hm1 : hasMatch '}' s = false)
    (hm2 : hasMatch ']' s = false)
    (hprose : proseOK w p1 p2) :
    extractChars (embedText w p1 p2 s) = some o := by
  have hsm : ∃ smid, s = '{' :: smid := by
    cases s with
    | nil => simp at hhead
    | cons c rest =>
      simp only [List.head?_cons, Option.some.injEq] at hhead
      exact ⟨rest, by rw [hhead]⟩
  have hsi : ∃ sinit, s = sinit ++ ['}'] :=
    ⟨s.dropLast, (List.dropLast_append_getLast? '}' hlast).symm⟩
  obtain ⟨smid, hsm⟩ := hsm
  obtain ⟨sinit, hsi⟩ := hsi
  cases w with
  | bare =>
    obtain ⟨hb1, hb2, hbrace1, hbrace2⟩ := hprose
    unfold extractChars embedText
    rw [stripFence_no_bt _ (by
      intro hmem
      rcases List.mem_append.mp hmem with hmem1 | hmem2
      · rcases List.mem_append.mp hmem1 with h | h
        · exact hb1 h
        · exact hbt h
      · exact hb2 hmem2)]
    exact sliceAndParse_exact p1 p2 s o hbrace1 hbrace2 smid hsm sinit hsi hm1 hm2 hparse
  | fenced tag =>
    have hb1 : backtick ∉ p1 := hprose
    unfold extractChars embedText
    rw [stripFence_fenced p1 p2 s tag hb1 hbt]
    rw [show '\n' :: (s ++ ['\n']) = ['\n'] ++ s ++ ['\n'] by simp]
    exact sliceAndParse_exact ['\n'] ['\n'] s o (by decide) (by decide)
      smid hsm sinit hsi hm1 hm2 hparse

theorem extractor_roundtrip_amended_witness :
    jsonParse witSer = some witJson ∧
    extractChars (embedText (FenceWrap.fenced true) "Sure! ".data " Done.".data witSer) =
      some witJson :=
  ⟨by decide,
    extractor_roundtrip_amended witJson witSer (FenceWrap.fenced true)
      "Sure! ".data " Done.".data (by decide) (by decide) (by decide) (by decide)
      (by decide) (by decide) (show backtick ∉ "Sure! ".data by decide)⟩

